import Mathlib

/-!
Verification of the Czech diacritics / encoding-detection core of the
`jmena-draci-doupe` repository.  The Python sources are shallowly embedded:
strings become `List Char`, the Unicode NFD-based diacritic stripping becomes
an explicit character table over the Czech alphabet, Python `dict`s become
association lists in insertion order, and the nondeterministic
`list(set(...))` deduplication is modelled as first-occurrence deduplication
(every claim settled below is independent of the deduplication order).
-/

/-- Strings of the embedded programs are lists of characters. -/
abbrev Str := List Char

/-- Association-list lookup, modelling Python `dict` key lookup
(`k in d` / `d[k]`). -/
def lookupA {β : Type} : List (Str × β) → Str → Option β
  | [], _ => none
  | p :: ps, k => if p.1 = k then some p.2 else lookupA ps k

/-- Lowercase→uppercase pairs for the Czech diacritic letters
(the non-ASCII part of Python `str.upper`). -/
def czUpperPairs : List (Char × Char) :=
  [('á', 'Á'), ('č', 'Č'), ('ď', 'Ď'), ('é', 'É'), ('ě', 'Ě'), ('í', 'Í'),
   ('ň', 'Ň'), ('ó', 'Ó'), ('ř', 'Ř'), ('š', 'Š'), ('ť', 'Ť'), ('ú', 'Ú'),
   ('ů', 'Ů'), ('ý', 'Ý'), ('ž', 'Ž')]

/-- Uppercase→lowercase pairs for the Czech diacritic letters
(the non-ASCII part of Python `str.lower`). -/
def czLowerPairs : List (Char × Char) :=
  [('Á', 'á'), ('Č', 'č'), ('Ď', 'ď'), ('É', 'é'), ('Ě', 'ě'), ('Í', 'í'),
   ('Ň', 'ň'), ('Ó', 'ó'), ('Ř', 'ř'), ('Š', 'š'), ('Ť', 'ť'), ('Ú', 'ú'),
   ('Ů', 'ů'), ('Ý', 'ý'), ('Ž', 'ž')]

/-- Character lookup in a pair table. -/
def lookupC : List (Char × Char) → Char → Option Char
  | [], _ => none
  | p :: ps, k => if p.1 = k then some p.2 else lookupC ps k

/-- Python `ch.upper()` over the ASCII + Czech alphabet. -/
def czUpper (c : Char) : Char := (lookupC czUpperPairs c).getD c.toUpper

/-- Python `ch.lower()` over the ASCII + Czech alphabet. -/
def czLower (c : Char) : Char := (lookupC czLowerPairs c).getD c.toLower

/-- The uppercase Czech diacritic letters. -/
def czUpperChars : List Char := czLowerPairs.map Prod.fst

/-- The lowercase Czech diacritic letters. -/
def czLowerChars : List Char := czUpperPairs.map Prod.fst

/-- Python `ch.isupper()` over the ASCII + Czech alphabet. -/
def isUpperCh (c : Char) : Bool := c.isUpper || czUpperChars.contains c

/-- Python `ch.islower()` over the ASCII + Czech alphabet. -/
def isLowerCh (c : Char) : Bool := c.isLower || czLowerChars.contains c

/-- Whether a character is cased (upper or lower). -/
def isCased (c : Char) : Bool := isUpperCh c || isLowerCh c

/-- Python `s.upper()`. -/
def upperStr (s : Str) : Str := s.map czUpper

/-- Python `s.lower()`. -/
def lowerStr (s : Str) : Str := s.map czLower

/-- Python `s.isupper()`: at least one cased character and no lowercase one. -/
def isupperS (s : Str) : Bool := s.any isCased && s.all (fun c => !isLowerCh c)

/-- State machine of Python `s.istitle()`: uppercase characters may only
follow uncased ones, lowercase only cased ones, and at least one cased
character must occur. -/
def istitleAux : Str → Bool → Bool → Bool
  | [], _, found => found
  | c :: cs, prevCased, found =>
    if isUpperCh c then
      if prevCased then false else istitleAux cs true true
    else if isLowerCh c then
      if prevCased then istitleAux cs true true else false
    else istitleAux cs false found

/-- Python `s.istitle()`. -/
def istitleS (s : Str) : Bool := istitleAux s false false

/-- Python `s.capitalize()`: first character uppercased, the rest lowercased. -/
def capitalizeStr : Str → Str
  | [] => []
  | c :: cs => czUpper c :: cs.map czLower

/-- Python `s.strip()`: drop leading and trailing whitespace. -/
def trim (s : Str) : Str :=
  ((s.dropWhile Char.isWhitespace).reverse.dropWhile Char.isWhitespace).reverse

/-- The effect of Unicode NFD decomposition followed by removal of the
combining (`Mn`) marks on each letter of the Czech alphabet: every
precomposed diacritic letter maps to its plain base letter. -/
def diacriticMap : List (Char × Char) :=
  [('á', 'a'), ('č', 'c'), ('ď', 'd'), ('é', 'e'), ('ě', 'e'), ('í', 'i'),
   ('ň', 'n'), ('ó', 'o'), ('ř', 'r'), ('š', 's'), ('ť', 't'), ('ú', 'u'),
   ('ů', 'u'), ('ý', 'y'), ('ž', 'z'),
   ('Á', 'A'), ('Č', 'C'), ('Ď', 'D'), ('É', 'E'), ('Ě', 'E'), ('Í', 'I'),
   ('Ň', 'N'), ('Ó', 'O'), ('Ř', 'R'), ('Š', 'S'), ('Ť', 'T'), ('Ú', 'U'),
   ('Ů', 'U'), ('Ý', 'Y'), ('Ž', 'Z')]

/-- Per-character diacritic stripping (NFD + drop `Mn` + recompose on one
character): table hit replaces the character, anything else is kept. -/
def charStrip (c : Char) : Char := (lookupC diacriticMap c).getD c

/-- Embedding of `strip_diacritics` from `src/diacritics/restore_diacritics.py`:
NFD-normalize, drop combining marks, NFC-normalize — character-wise this is
exactly the `charStrip` table map. -/
def strip_diacritics (s : Str) : Str := s.map charStrip

/-- Embedding of `CzechDiacritizer._strip_diacritics` from `src/diacritizer.py`:
NFD-normalize and drop combining marks (no final NFC; on precomposed input
this is the same character map). -/
def cd_strip_diacritics (s : Str) : Str := s.map charStrip

/-- Helper: the result of a `lookupC` hit is a member pair of the table. -/
theorem lookupC_mem {l : List (Char × Char)} {k v : Char}
    (h : lookupC l k = some v) : (k, v) ∈ l := by
  induction l with
  | nil => simp [lookupC] at h
  | cons p ps ih =>
    by_cases hk : p.1 = k
    · simp [lookupC, hk] at h
      subst h
      have hp : p = (k, p.2) := by
        cases p
        simp_all
      rw [hp] at *
      exact List.mem_cons_self _ _
    · simp [lookupC, hk] at h
      right
      exact ih h

/-- Helper: no output of the diacritic table is itself a key of the table. -/
theorem diacriticMap_values_not_keys :
    ∀ p ∈ diacriticMap, lookupC diacriticMap p.2 = none := by decide

/-- Helper: per-character stripping is idempotent. -/
theorem charStrip_idem (c : Char) : charStrip (charStrip c) = charStrip c := by
  unfold charStrip
  cases h : lookupC diacriticMap c with
  | none => simp [h]
  | some b =>
    have hb : lookupC diacriticMap b = none :=
      diacriticMap_values_not_keys (c, b) (lookupC_mem h)
    simp [h, hb]

/-- C10: diacritic stripping is idempotent — for every string `s`,
stripping twice equals stripping once, for both the module-level
`strip_diacritics` and `CzechDiacritizer._strip_diacritics`, so keys built
from stripped forms are stable under repeated stripping. -/
theorem C10_strip_diacritics_idempotent (s : Str) :
    strip_diacritics (strip_diacritics s) = strip_diacritics s ∧
    cd_strip_diacritics (cd_strip_diacritics s) = cd_strip_diacritics s := by
  constructor <;>
    simp [strip_diacritics, cd_strip_diacritics, List.map_map,
      Function.comp, charStrip_idem]

/-! ## Encoding detection (`src/convert_drd_names.py`) -/

/-- The Czech diacritic character set of `score_czech_encoding`
(`czech_chars` in the source). -/
def czech_chars : Str :=
  "áčďéěíňóřšťúůýžÁČĎÉĚÍŇÓŘŠŤÚŮÝŽ".data

/-- The mojibake character set of `score_czech_encoding`
(`mojibake_patterns` in the source; each pattern is one character). -/
def mojibake_patterns : Str :=
  "ĄĆĘŁŃŚŹŻâãäåæçèêë¡¢£¤¥¦§¨©°±²³´µ¶·¸¹".data

/-- Count of characters of the sample that lie in the Czech diacritic set. -/
def czechCount (s : Str) : Nat := s.countP (fun c => czech_chars.contains c)

/-- Count of characters of the sample that lie in the mojibake set. -/
def mojibakeCount (s : Str) : Nat :=
  s.countP (fun c => mojibake_patterns.contains c)

/-- Embedding of `score_czech_encoding`: ratio-based score of a decoded text sample,
`min(1, max(0, 2·czechRatio − 3·mojibakeRatio))`, with 0 for empty input. -/
def score_czech_encoding (s : Str) : ℚ :=
  if s = [] then 0
  else
    let total : ℚ := (s.length : ℚ)
    if total = 0 then 0
    else
      let czech_ratio : ℚ := (czechCount s : ℚ) / total
      let mojibake_penalty : ℚ := (mojibakeCount s : ℚ) / total
      min 1 (max 0 (czech_ratio * 2 - mojibake_penalty * 3))

/-- Python `' '.join(sample_texts)` on the collected string fields. -/
def joinSp : List Str → Str
  | [] => []
  | [s] => s
  | s :: t :: rest => s ++ ' ' :: joinSp (t :: rest)

/-- One iteration of the candidate loop of `detect_dbf_encoding`: a `none`
decode result models the `except` branch (DBF read / strict decode failure),
an empty sample list models a file yielding no string fields; both leave the
running best untouched, otherwise the candidate replaces the best exactly
when its score is strictly greater. -/
def detectStep (decode : String → Option (List Str))
    (best : String × ℚ × String) (e : String) : String × ℚ × String :=
  match decode e with
  | none => best
  | some texts =>
    if texts.isEmpty then best
    else
      let score := score_czech_encoding (joinSp texts)
      if best.2.1 < score then (e, score, "czech_scoring") else best

/-- Embedding of `detect_dbf_encoding`: fold the candidate loop over the encoding list,
starting from the hardcoded default `("cp852", 0.0, "fallback")`.  The
candidate list and the per-encoding sampling are parameters (the DBF reader
is an external collaborator). -/
def detect_dbf_encoding (encs : List String)
    (decode : String → Option (List Str)) : String × ℚ × String :=
  encs.foldl (detectStep decode) ("cp852", 0, "fallback")

/-- The score a candidate contributes in the loop: `none` when it is skipped
(decode failure or no sampled text), otherwise its sample score. -/
def candScore (decode : String → Option (List Str)) (e : String) : Option ℚ :=
  match decode e with
  | none => none
  | some texts =>
    if texts.isEmpty then none else some (score_czech_encoding (joinSp texts))

/-- The scored candidates of a run, in input order. -/
def validCandidates (encs : List String)
    (decode : String → Option (List Str)) : List (String × ℚ) :=
  encs.filterMap (fun e => (candScore decode e).map (fun q => (e, q)))

/-- The earliest candidate attaining the maximum score, following the
claim's words ("stable argmax"): an entry is kept unless a strictly larger
score occurs later. -/
def earliestArgmax : List (String × ℚ) → Option (String × ℚ)
  | [] => none
  | p :: ps =>
    match earliestArgmax ps with
    | none => some p
    | some q => if p.2 < q.2 then some q else some p

/-- Helper: one detector step expressed through the candidate's
optional score. -/
theorem detectStep_eq (decode : String → Option (List Str))
    (b : String × ℚ × String) (x : String) :
    detectStep decode b x =
      match candScore decode x with
      | none => b
      | some s => if b.2.1 < s then (x, s, "czech_scoring") else b := by
  unfold detectStep candScore
  cases decode x with
  | none => rfl
  | some texts =>
    by_cases ht : texts.isEmpty <;> simp [ht]

/-- Helper: the scored-candidate list of a `cons`. -/
theorem validCandidates_cons (decode : String → Option (List Str))
    (x : String) (xs : List String) :
    validCandidates (x :: xs) decode =
      match candScore decode x with
      | none => validCandidates xs decode
      | some s => (x, s) :: validCandidates xs decode := by
  unfold validCandidates
  rw [List.filterMap_cons]
  cases candScore decode x <;> simp

/-- Helper: the candidate loop of `detect_dbf_encoding` computes the
earliest maximum of the scored candidates, guarded by the running best's
score. -/
theorem detect_fold_eq (decode : String → Option (List Str)) :
    ∀ (encs : List String) (b : String × ℚ × String),
      encs.foldl (detectStep decode) b =
        match earliestArgmax (validCandidates encs decode) with
        | none => b
        | some p => if b.2.1 < p.2 then (p.1, p.2, "czech_scoring") else b := by
  intro encs
  induction encs with
  | nil =>
    intro b
    simp [validCandidates, earliestArgmax]
  | cons x xs ih =>
    intro b
    rw [List.foldl_cons, ih, validCandidates_cons, detectStep_eq]
    cases hc : candScore decode x with
    | none => rfl
    | some s =>
      simp only [earliestArgmax]
      cases hq : earliestArgmax (validCandidates xs decode) with
      | none =>
        by_cases h1 : b.2.1 < s <;> simp [h1]
      | some q =>
        by_cases h1 : b.2.1 < s <;> by_cases h2 : s < q.2 <;>
          simp [h1, h2] <;> by_cases h3 : b.2.1 < q.2 <;>
            simp [h3] <;> first | rfl | linarith

/-- C1 counterexample: for the one-character sample `"á"` the detector's
score is the clamped ratio `1`, not the integer `2·diacriticCount −
3·mojibakeCount = 2` the claim states. -/
theorem C1_score_counterexample :
    score_czech_encoding "á".data = 1 ∧
    (2 * (czechCount "á".data : ℤ) - 3 * (mojibakeCount "á".data : ℤ) = 2) ∧
    score_czech_encoding "á".data ≠
      2 * (czechCount "á".data : ℚ) - 3 * (mojibakeCount "á".data : ℚ) := by
  have hc : czechCount "á".data = 1 := by decide
  have hm : mojibakeCount "á".data = 0 := by decide
  have hl : "á".data.length = 1 := by decide
  have hne : "á".data ≠ [] := by decide
  have hs : score_czech_encoding "á".data = 1 := by
    unfold score_czech_encoding
    rw [if_neg hne, hc, hm, hl]
    norm_num [min_def, max_def]
  refine ⟨hs, by rw [hc, hm]; norm_num, ?_⟩
  rw [hs, hc, hm]
  norm_num

/-- C1 amended: the score of a decoded sample is the ratio-based value
`min(1, max(0, 2·czechCount/total − 3·mojibakeCount/total))`, always lying
in `[0, 1]`; a candidate whose decode fails receives no score at all (no
sentinel) — it is skipped, leaving the detection result exactly as if the
candidate were absent. -/
theorem C1_score_clamped_and_failures_skipped :
    (∀ s : Str, 0 ≤ score_czech_encoding s ∧ score_czech_encoding s ≤ 1) ∧
    (∀ (l1 l2 : List String) (e : String)
       (decode : String → Option (List Str)), decode e = none →
       detect_dbf_encoding (l1 ++ e :: l2) decode =
         detect_dbf_encoding (l1 ++ l2) decode) := by
  constructor
  · intro s
    unfold score_czech_encoding
    by_cases hs : s = []
    · simp [hs]
    · simp only [hs, if_false]
      by_cases ht : (s.length : ℚ) = 0
      · simp [ht]
      · simp only [ht, if_false]
        constructor
        · exact le_min (by norm_num) (le_max_left 0 _)
        · exact min_le_left _ _
  · intro l1 l2 e decode h
    unfold detect_dbf_encoding
    rw [List.foldl_append, List.foldl_append, List.foldl_cons]
    have hstep : ∀ b, detectStep decode b e = b := by
      intro b
      unfold detectStep
      rw [h]
    rw [hstep]

/-- Witness for C1's amended theorem at concrete inputs. -/
theorem C1_witness :
    (0 ≤ score_czech_encoding "á".data ∧ score_czech_encoding "á".data ≤ 1) ∧
    ((fun _ : String => (none : Option (List Str))) "cp1250" = none ∧
     detect_dbf_encoding (["cp852"] ++ "cp1250" :: []) (fun _ => none) =
       detect_dbf_encoding (["cp852"] ++ []) (fun _ => none)) :=
  ⟨C1_score_clamped_and_failures_skipped.1 _,
   rfl, C1_score_clamped_and_failures_skipped.2 ["cp852"] [] "cp1250" _ rfl⟩

/-- C7 counterexample: with zero sampled records the detector does not
return the first candidate of the input order — it returns the hardcoded
default `cp852` even when `iso-8859-2` comes first. -/
theorem C7_zero_records_counterexample :
    detect_dbf_encoding ["iso-8859-2", "cp852", "cp1250"] (fun _ => some []) =
      ("cp852", 0, "fallback") ∧
    ["iso-8859-2", "cp852", "cp1250"].headD "" = "iso-8859-2" ∧
    "cp852" ≠ "iso-8859-2" := by
  refine ⟨rfl, rfl, by decide⟩

/-- C7 amended: detection never fails — when every candidate either fails
to decode or yields no sampled text, the loop leaves the initial best
untouched and returns the hardcoded default `("cp852", 0.0, "fallback")`
regardless of the candidate order; the condition is surfaced only through
the returned method string `"fallback"`, not through any warning event. -/
theorem C7_fallback_default (encs : List String)
    (decode : String → Option (List Str))
    (h : ∀ e ∈ encs, decode e = none ∨ decode e = some []) :
    detect_dbf_encoding encs decode = ("cp852", 0, "fallback") := by
  unfold detect_dbf_encoding
  induction encs with
  | nil => rfl
  | cons x xs ih =>
    rw [List.foldl_cons]
    have hx : detectStep decode ("cp852", 0, "fallback") x =
        ("cp852", 0, "fallback") := by
      rcases h x (List.mem_cons_self _ _) with hn | he
      · unfold detectStep
        rw [hn]
      · unfold detectStep
        rw [he]
        rfl
    rw [hx]
    exact ih (fun e he => h e (List.mem_cons_of_mem _ he))

/-- Witness for C7's amended theorem at concrete inputs. -/
theorem C7_witness :
    (∀ e ∈ ["iso-8859-2", "cp852"],
      (fun _ : String => (some [] : Option (List Str))) e = none ∨
      (fun _ : String => (some [] : Option (List Str))) e = some []) ∧
    detect_dbf_encoding ["iso-8859-2", "cp852"] (fun _ => some []) =
      ("cp852", 0, "fallback") :=
  ⟨fun _ _ => Or.inr rfl,
   C7_fallback_default _ _ (fun _ _ => Or.inr rfl)⟩

/-- C9 counterexample: when every candidate decodes and all scores tie at
the maximum 0, the detector returns the hardcoded `cp852` (method
`"fallback"`), not the earliest maximal candidate `iso-8859-2` of the input
order. -/
theorem C9_tie_counterexample :
    detect_dbf_encoding ["iso-8859-2", "cp852", "cp1250"]
        (fun _ => some ["abc".data]) = ("cp852", 0, "fallback") ∧
    earliestArgmax (validCandidates ["iso-8859-2", "cp852", "cp1250"]
        (fun _ => some ["abc".data])) = some ("iso-8859-2", 0) ∧
    "cp852" ≠ "iso-8859-2" := by
  have h0 : score_czech_encoding (joinSp ["abc".data]) = 0 := by
    show score_czech_encoding "abc".data = 0
    have hc : czechCount "abc".data = 0 := by decide
    have hm : mojibakeCount "abc".data = 0 := by decide
    have hl : "abc".data.length = 3 := by decide
    have hne : "abc".data ≠ [] := by decide
    unfold score_czech_encoding
    rw [if_neg hne, hc, hm, hl]
    norm_num [min_def, max_def]
  have hcand : ∀ e : String,
      candScore (fun _ => some ["abc".data]) e = some 0 := by
    intro e
    unfold candScore
    simp [h0]
  refine ⟨?_, ?_, by decide⟩
  · have hstep : ∀ e : String,
        detectStep (fun _ => some ["abc".data]) ("cp852", 0, "fallback") e =
          ("cp852", 0, "fallback") := by
      intro e
      rw [detectStep_eq, hcand]
      simp
    unfold detect_dbf_encoding
    rw [List.foldl_cons, hstep, List.foldl_cons, hstep, List.foldl_cons,
      hstep]
    rfl
  · rw [validCandidates_cons, hcand, validCandidates_cons, hcand,
      validCandidates_cons, hcand]
    show earliestArgmax [("iso-8859-2", 0), ("cp852", 0), ("cp1250", 0)] =
      some ("iso-8859-2", 0)
    simp [earliestArgmax, validCandidates]

/-- C9 amended: whenever the earliest maximal scored candidate has a
strictly positive score, the detector returns exactly that candidate with
its score and method `"czech_scoring"`; ties and the all-zero case fall
back to the hardcoded default instead of the input order. -/
theorem C9_earliest_positive_argmax (encs : List String)
    (decode : String → Option (List Str)) (e : String) (q : ℚ)
    (hmax : earliestArgmax (validCandidates encs decode) = some (e, q))
    (hpos : 0 < q) :
    detect_dbf_encoding encs decode = (e, q, "czech_scoring") := by
  unfold detect_dbf_encoding
  rw [detect_fold_eq, hmax]
  simp [hpos]

/-- Witness for C9's amended theorem at concrete inputs. -/
theorem C9_witness :
    earliestArgmax (validCandidates ["cp852", "cp1250"]
        (fun e => if e = "cp850" then some ["abc".data]
                  else some ["á".data])) = some ("cp852", 1) ∧
    (0 : ℚ) < 1 ∧
    detect_dbf_encoding ["cp852", "cp1250"]
        (fun e => if e = "cp850" then some ["abc".data]
                  else some ["á".data]) = ("cp852", 1, "czech_scoring") := by
  have h1 : score_czech_encoding (joinSp ["á".data]) = 1 := by
    show score_czech_encoding "á".data = 1
    have hc : czechCount "á".data = 1 := by decide
    have hm : mojibakeCount "á".data = 0 := by decide
    have hl : "á".data.length = 1 := by decide
    have hne : "á".data ≠ [] := by decide
    unfold score_czech_encoding
    rw [if_neg hne, hc, hm, hl]
    norm_num [min_def, max_def]
  have hcand : ∀ e : String,
      candScore (fun s => if s = "cp850" then some ["abc".data]
                          else some ["á".data]) e =
        if e = "cp850" then some (score_czech_encoding (joinSp ["abc".data]))
        else some 1 := by
    intro e
    unfold candScore
    by_cases he : e = "cp850" <;> simp [he, h1]
  have hmax : earliestArgmax (validCandidates ["cp852", "cp1250"]
      (fun e => if e = "cp850" then some ["abc".data]
                else some ["á".data])) = some ("cp852", 1) := by
    rw [validCandidates_cons, hcand, validCandidates_cons, hcand]
    norm_num
    show earliestArgmax [("cp852", 1), ("cp1250", 1)] = some ("cp852", 1)
    simp [earliestArgmax, validCandidates]
  exact ⟨hmax, by norm_num,
    C9_earliest_positive_argmax _ _ _ _ hmax (by norm_num)⟩

/-! ## Diacritizer (`src/diacritizer.py`) -/

/-- The MorfFlex dictionary: base form ↦ word forms of its group, in
insertion order (`CzechDiacritizer._dictionary`). -/
abbrev Dict := List (Str × List Str)

/-- First-occurrence deduplication with an accumulator of already-seen
elements; deterministic model of Python `list(set(candidates))` (every
claim below is independent of the chosen order). -/
def dedupAux : List Str → List Str → List Str
  | [], _ => []
  | x :: xs, seen =>
    if seen.contains x then dedupAux xs seen
    else x :: dedupAux xs (x :: seen)

/-- Deduplicate a candidate list. -/
def dedupF (l : List Str) : List Str := dedupAux l []

/-- Inner loop of the exact pass: does some form of the group equal the
token case-insensitively? -/
def groupMatchesExact (token : Str) (vs : List Str) : Bool :=
  vs.any (fun v => lowerStr token == lowerStr v)

/-- Inner loop of the fallback pass: does some form of the group have the
given diacritic-stripped lowercase form? -/
def groupMatchesStripped (ts : Str) (vs : List Str) : Bool :=
  vs.any (fun v => cd_strip_diacritics (lowerStr v) == ts)

/-- Exact pass of `_find_candidates`: every group with a case-insensitive
match contributes all of its forms (the source's `break` only ends the scan
inside the matching group). -/
def collectExact (d : Dict) (token : Str) : List Str :=
  d.foldl (fun acc g => if groupMatchesExact token g.2 then acc ++ g.2 else acc) []

/-- Fallback pass of `_find_candidates`: every group with a
stripped-form match contributes all of its forms. -/
def collectStripped (d : Dict) (ts : Str) : List Str :=
  d.foldl
    (fun acc g => if groupMatchesStripped ts g.2 then acc ++ g.2 else acc) []

/-- Embedding of `CzechDiacritizer._find_candidates`. -/
def find_candidates (d : Dict) (token : Str) : List Str :=
  if d = [] then []
  else
    let exact := collectExact d token
    let cands :=
      if exact = [] then
        collectStripped d (cd_strip_diacritics (lowerStr token))
      else exact
    dedupF cands

/-- Length of the longest common prefix of two strings. -/
def commonPrefixLen : Str → Str → Nat
  | a :: as, b :: bs => if a = b then commonPrefixLen as bs + 1 else 0
  | _, _ => 0

/-- Length of the longest common suffix of two strings: the source's
backwards loop counting matching characters from the end until the first
mismatch. -/
def commonSuffixLen (a b : Str) : Nat := commonPrefixLen a.reverse b.reverse

/-- Embedding of `CzechDiacritizer._score_candidate`: ordered score tuple
(suffix-match quality, PAD2 preference, exact-suffix distance, length
difference), lower is better. -/
def score_candidate (prefer : Bool) (original candidate : Str)
    (is_pad2 : Bool) : Nat × Nat × Nat × Nat :=
  let orig_stripped := cd_strip_diacritics (lowerStr original)
  let cand_stripped := cd_strip_diacritics (lowerStr candidate)
  let common_suffix_len := commonSuffixLen orig_stripped cand_stripped
  let suffix_match_score :=
    if common_suffix_len ≥ min 3 orig_stripped.length then 0 else 1
  let pad2_score :=
    if is_pad2 && prefer then
      if candidate.getLast? = some 'ů' then 0
      else if candidate.getLast? = some 'u' then 1
      else 0
    else 0
  let exact_suffix_len := commonSuffixLen (lowerStr original) (lowerStr candidate)
  let exact_suffix_score := original.length - exact_suffix_len
  let length_score := ((original.length : Int) - candidate.length).natAbs
  (suffix_match_score, pad2_score, exact_suffix_score, length_score)

/-- Positionwise case transfer of `_preserve_case`: for each shared
position, uppercase the candidate's character if the original's is
uppercase, lowercase it if the original's is lowercase, otherwise keep it;
positions beyond the shorter string keep the candidate's characters. -/
def pcAux : Str → Str → Str
  | _, [] => []
  | [], cs => cs
  | o :: os, c :: cs =>
    (if isUpperCh o then czUpper c
     else if isLowerCh o then czLower c
     else c) :: pcAux os cs

/-- Embedding of `CzechDiacritizer._preserve_case`. -/
def preserve_case (original candidate : Str) : Str :=
  if original = [] ∨ candidate = [] then candidate else pcAux original candidate

/-- Python tuple `<` on the 4-component score tuples (lexicographic). -/
def tupLt (a b : Nat × Nat × Nat × Nat) : Bool :=
  Nat.blt a.1 b.1 ||
    (a.1 == b.1 && (Nat.blt a.2.1 b.2.1 ||
      (a.2.1 == b.2.1 && (Nat.blt a.2.2.1 b.2.2.1 ||
        (a.2.2.1 == b.2.2.1 && Nat.blt a.2.2.2 b.2.2.2)))))

/-- Stable insertion into a score-sorted list: an element passes every
strictly smaller head and stops before the first head not strictly smaller,
so earlier elements precede equal-scored later ones. -/
def insertScored (x : (Nat × Nat × Nat × Nat) × Str) :
    List ((Nat × Nat × Nat × Nat) × Str) →
      List ((Nat × Nat × Nat × Nat) × Str)
  | [] => [x]
  | y :: ys => if tupLt y.1 x.1 then y :: insertScored x ys else x :: y :: ys

/-- Stable sort by score tuple, modelling Python's stable
`list.sort(key=...)` (a stable sort's output is unique, so any stable
algorithm is extensionally the source's). -/
def sortScored : List ((Nat × Nat × Nat × Nat) × Str) →
    List ((Nat × Nat × Nat × Nat) × Str)
  | [] => []
  | x :: xs => insertScored x (sortScored xs)

/-- First candidate of a scored list (`scored_candidates[0][1]`), with a
default for the unreachable empty case. -/
def headCand : List ((Nat × Nat × Nat × Nat) × Str) → Str → Str
  | [], dflt => dflt
  | p :: _, _ => p.2

/-- Embedding of `CzechDiacritizer.stats`: total processed, changed, unchanged and the
per-column buckets (column ↦ (total, changed)). -/
structure Stats where
  total_processed : Nat
  changed : Nat
  unchanged : Nat
  by_column : List (Str × Nat × Nat)

/-- The PAD2 column label. -/
def pad2Str : Str := "PAD2".data

/-- Embedding of `CzechDiacritizer.diacritize_token`: returns the diacritized token and
the updated statistics. -/
def diacritize_token (d : Dict) (prefer : Bool) (token col : Str)
    (st : Stats) : Str × Stats :=
  if (trim token).isEmpty then (token, st)
  else
    let clean := trim token
    let is_pad2 := upperStr col == pad2Str
    match find_candidates d clean with
    | [] => (token, { st with unchanged := st.unchanged + 1 })
    | c :: cs =>
      let scored := (c :: cs).map
        (fun cand => (score_candidate prefer clean cand is_pad2, cand))
      let best := headCand (sortScored scored) clean
      let result := preserve_case clean best
      if result == clean then (result, { st with unchanged := st.unchanged + 1 })
      else (result, { st with changed := st.changed + 1 })

/-- Python `d[k] = v` on the per-column bucket dictionary: replace the
existing entry or append a new one. -/
def setAssoc : List (Str × Nat × Nat) → Str → Nat × Nat → List (Str × Nat × Nat)
  | [], k, v => [(k, v)]
  | p :: ps, k, v => if p.1 = k then (k, v) :: ps else p :: setAssoc ps k v

/-- Value loop of `diacritize_column`: outputs, statistics after the
per-token updates, and the count of changed values of this batch. -/
def dcAux (d : Dict) (prefer : Bool) (col : Str) :
    List Str → Stats → List Str × Stats × Nat
  | [], st => ([], st, 0)
  | v :: vs, st =>
    ((diacritize_token d prefer v col st).1 ::
        (dcAux d prefer col vs (diacritize_token d prefer v col st).2).1,
     (dcAux d prefer col vs (diacritize_token d prefer v col st).2).2.1,
     (dcAux d prefer col vs (diacritize_token d prefer v col st).2).2.2 +
       (if (diacritize_token d prefer v col st).1 ≠ v then 1 else 0))

/-- Embedding of `CzechDiacritizer.diacritize_column`: per-value restoration, then the
column bucket is overwritten with this batch's `(total, changed)` and
`total_processed` grows by the batch length. -/
def diacritize_column (d : Dict) (prefer : Bool) (values : List Str)
    (col : Str) (st : Stats) : List Str × Stats :=
  ((dcAux d prefer col values st).1,
   { (dcAux d prefer col values st).2.1 with
     by_column := setAssoc (dcAux d prefer col values st).2.1.by_column col
       (values.length, (dcAux d prefer col values st).2.2),
     total_processed :=
       (dcAux d prefer col values st).2.1.total_processed + values.length })

/-- A sequence of `diacritize_token` calls (token, column), threading the
statistics; returns the outputs in order and the final statistics. -/
def runTokens (d : Dict) (prefer : Bool) :
    List (Str × Str) → Stats → List Str × Stats
  | [], st => ([], st)
  | q :: rest, st =>
    ((diacritize_token d prefer q.1 q.2 st).1 ::
        (runTokens d prefer rest (diacritize_token d prefer q.1 q.2 st).2).1,
     (runTokens d prefer rest (diacritize_token d prefer q.1 q.2 st).2).2)

/-- The sample MorfFlex dictionary of `CzechDiacritizer._download_morfflex`,
grouped as `_load_dictionary` builds it. -/
def sample_dict : Dict :=
  [("blesk".data,
    ["blesk".data, "blesku".data, "blesků".data, "blesky".data,
     "bleskem".data]),
   ("hrom".data,
    ["hrom".data, "hromu".data, "hromů".data, "hromy".data, "hromem".data]),
   ("duch".data,
    ["duch".data, "duchu".data, "duchů".data, "duchy".data, "duchem".data]),
   ("komar".data,
    ["komár".data, "komára".data, "komárů".data, "komáry".data,
     "komárem".data, "komar".data]),
   ("bazina".data,
    ["bažina".data, "bažiny".data, "bažin".data, "bazina".data]),
   ("pavel".data,
    ["Pavel".data, "Pavla".data, "Pavlů".data, "Pavly".data, "Pavlem".data]),
   ("jana".data,
    ["Jana".data, "Jany".data, "Janě".data, "Janu".data, "Jano".data,
     "Janou".data]),
   ("petr".data,
    ["Petr".data, "Petra".data, "Petrovi".data, "Petrem".data,
     "Petrů".data]),
   ("martin".data,
    ["Martin".data, "Martina".data, "Martinovi".data, "Martinem".data,
     "Martinů".data]),
   ("tomas".data,
    ["Tomáš".data, "Tomáše".data, "Tomášovi".data, "Tomášem".data,
     "Tomášů".data])]

/-! ## Diacritics restorer (`src/diacritics/restore_diacritics.py`) -/

/-- Embedding of `DiacriticsRestorer.restore_word_diacritics`: overrides first (stripped
lowercase key), then the stripped-form dictionary (first candidate of the
group), each followed by the whole-uppercase / title-case / as-is case
reapplication; otherwise the word is returned unchanged. -/
def restore_word_diacritics (ov : List (Str × Str))
    (dict : List (Str × List Str)) (word : Str) : Str :=
  if word = [] ∨ (trim word).isEmpty then word
  else
    let word_lower := lowerStr word
    let stripped_lower := strip_diacritics word_lower
    match lookupA ov stripped_lower with
    | some restored =>
      if isupperS word then upperStr restored
      else if istitleS word then capitalizeStr restored
      else restored
    | none =>
      match lookupA dict stripped_lower with
      | some (r :: _) =>
        if isupperS word then upperStr r
        else if istitleS word then capitalizeStr r
        else r
      | _ => word

/-- Modelled from the spec: the case-reapplication rule exactly as claim C8
words it — whole-uppercase original ⇒ fully uppercased result, title-case
original ⇒ capitalize, otherwise the per-character pattern with positions
beyond the shorter string keeping the candidate's case.  Used only to
compare the claim's rule against the two source implementations. -/
def specCaseReapply (original chosen : Str) : Str :=
  if isupperS original then upperStr chosen
  else if istitleS original then capitalizeStr chosen
  else pcAux original chosen

/-! ## Candidate search (claim C3) -/

/-- Helper: membership in the deduplicated list. -/
theorem mem_dedupAux (a : Str) :
    ∀ (l seen : List Str), a ∈ dedupAux l seen ↔ a ∈ l ∧ a ∉ seen := by
  intro l
  induction l with
  | nil => simp [dedupAux]
  | cons x xs ih =>
    intro seen
    unfold dedupAux
    by_cases hx : seen.contains x
    · rw [if_pos hx, ih]
      have hxs : x ∈ seen := by simpa using hx
      constructor
      · rintro ⟨hm, hs⟩
        exact ⟨List.mem_cons_of_mem _ hm, hs⟩
      · rintro ⟨hm, hs⟩
        rcases List.mem_cons.mp hm with rfl | hm'
        · exact absurd hxs hs
        · exact ⟨hm', hs⟩
    · rw [if_neg hx]
      have hxs : x ∉ seen := by simpa using hx
      constructor
      · intro hm
        rcases List.mem_cons.mp hm with rfl | hm'
        · exact ⟨List.mem_cons_self _ _, hxs⟩
        · have := (ih (x :: seen)).mp hm'
          refine ⟨List.mem_cons_of_mem _ this.1, fun hc => this.2 ?_⟩
          exact List.mem_cons_of_mem _ hc
      · rintro ⟨hm, hs⟩
        rcases List.mem_cons.mp hm with rfl | hm'
        · exact List.mem_cons_self _ _
        · by_cases hax : a = x
          · subst hax
            exact List.mem_cons_self _ _
          · refine List.mem_cons_of_mem _ ((ih (x :: seen)).mpr ⟨hm', ?_⟩)
            intro hc
            rcases List.mem_cons.mp hc with h1 | h2
            · exact hax h1
            · exact hs h2

/-- Helper: membership in `dedupF` is membership in the input. -/
theorem mem_dedupF (a : Str) (l : List Str) : a ∈ dedupF l ↔ a ∈ l := by
  unfold dedupF
  rw [mem_dedupAux]
  simp

/-- Helper: membership in the group-collecting fold of `_find_candidates`. -/
theorem mem_foldl_collect (p : List Str → Bool) (a : Str) :
    ∀ (d : Dict) (acc : List Str),
      a ∈ d.foldl (fun acc g => if p g.2 then acc ++ g.2 else acc) acc ↔
        a ∈ acc ∨ ∃ g ∈ d, p g.2 = true ∧ a ∈ g.2 := by
  intro d
  induction d with
  | nil => simp
  | cons g gs ih =>
    intro acc
    rw [List.foldl_cons]
    by_cases hg : p g.2
    · rw [if_pos hg, ih]
      simp only [List.mem_append, List.mem_cons, hg]
      constructor
      · rintro (⟨h1 | h2⟩ | h3)
        · exact Or.inl h1
        · exact Or.inr ⟨g, Or.inl rfl, hg, h2⟩
        · rcases h3 with ⟨g', hg', hp', ha'⟩
          exact Or.inr ⟨g', Or.inr hg', hp', ha'⟩
      · rintro (h1 | ⟨g', hg', hp', ha'⟩)
        · exact Or.inl (Or.inl h1)
        · rcases hg' with rfl | hg''
          · exact Or.inl (Or.inr ha')
          · exact Or.inr ⟨g', hg'', hp', ha'⟩
    · rw [if_neg hg, ih]
      simp only [List.mem_cons]
      constructor
      · rintro (h1 | ⟨g', hg', hp', ha'⟩)
        · exact Or.inl h1
        · exact Or.inr ⟨g', Or.inr hg', hp', ha'⟩
      · rintro (h1 | ⟨g', hg', hp', ha'⟩)
        · exact Or.inl h1
        · rcases hg' with rfl | hg''
          · exact absurd hp' (by simpa using hg)
          · exact Or.inr ⟨g', hg'', hp', ha'⟩

/-- Helper: membership in the exact pass. -/
theorem mem_collectExact (d : Dict) (token a : Str) :
    a ∈ collectExact d token ↔
      ∃ g ∈ d, groupMatchesExact token g.2 = true ∧ a ∈ g.2 := by
  unfold collectExact
  rw [mem_foldl_collect]
  simp

/-- Helper: membership in the fallback pass. -/
theorem mem_collectStripped (d : Dict) (ts a : Str) :
    a ∈ collectStripped d ts ↔
      ∃ g ∈ d, groupMatchesStripped ts g.2 = true ∧ a ∈ g.2 := by
  unfold collectStripped
  rw [mem_foldl_collect]
  simp

/-- Helper: `_find_candidates` on a nonempty dictionary is the
deduplicated exact pass, or the deduplicated fallback pass when the exact
pass is empty. -/
theorem find_candidates_eq (d : Dict) (token : Str) (hd : d ≠ []) :
    find_candidates d token =
      if collectExact d token = [] then
        dedupF (collectStripped d (cd_strip_diacritics (lowerStr token)))
      else dedupF (collectExact d token) := by
  unfold find_candidates
  rw [if_neg hd]
  show dedupF (if collectExact d token = [] then
      collectStripped d (cd_strip_diacritics (lowerStr token))
    else collectExact d token) = _
  by_cases hx : collectExact d token = []
  · rw [if_pos hx, if_pos hx]
  · rw [if_neg hx, if_neg hx]

/-- C3 counterexample: with two groups both containing the token `"abc"`,
the exact pass does not stop at the first matching group — the second
group's form `"y"` is still collected (the source's `break` only leaves the
inner per-group loop). -/
theorem C3_no_early_stop_counterexample :
    groupMatchesExact "abc".data ["abc".data, "x".data] = true ∧
    "y".data ∈ find_candidates
      [("a".data, ["abc".data, "x".data]), ("b".data, ["abc".data, "y".data])]
      "abc".data := by
  refine ⟨by decide, by decide⟩

/-- C3 amended: the exact pass scans all dictionary groups, collecting
every form of every group with a case-insensitive match (it does not stop
at the first matching group); the stripped-form fallback pass contributes
exactly when no group matches exactly. -/
theorem C3_candidate_passes (d : Dict) (token a : Str) :
    ((∃ g ∈ d, groupMatchesExact token g.2 = true) →
      (a ∈ find_candidates d token ↔
        ∃ g ∈ d, groupMatchesExact token g.2 = true ∧ a ∈ g.2)) ∧
    ((∀ g ∈ d, groupMatchesExact token g.2 = false) →
      (a ∈ find_candidates d token ↔
        ∃ g ∈ d,
          groupMatchesStripped (cd_strip_diacritics (lowerStr token)) g.2 =
            true ∧ a ∈ g.2)) := by
  constructor
  · rintro ⟨g0, hg0, hm0⟩
    have hd : d ≠ [] := by
      rintro rfl
      exact absurd hg0 (List.not_mem_nil _)
    have hx : collectExact d token ≠ [] := by
      have hv : ∃ v ∈ g0.2, (lowerStr token == lowerStr v) = true := by
        simpa [groupMatchesExact] using hm0
      rcases hv with ⟨v, hv1, _⟩
      have : v ∈ collectExact d token :=
        (mem_collectExact d token v).mpr ⟨g0, hg0, hm0, hv1⟩
      intro hnil
      rw [hnil] at this
      exact List.not_mem_nil _ this
    rw [find_candidates_eq d token hd, if_neg hx, mem_dedupF,
      mem_collectExact]
  · intro hall
    by_cases hd : d = []
    · subst hd
      unfold find_candidates
      simp
    · have hx : collectExact d token = [] := by
        rw [List.eq_nil_iff_forall_not_mem]
        intro x hx
        rcases (mem_collectExact d token x).mp hx with ⟨g, hg, hm, _⟩
        rw [hall g hg] at hm
        exact Bool.false_ne_true hm
      rw [find_candidates_eq d token hd, if_pos hx, mem_dedupF,
        mem_collectStripped]

/-- Witness for C3's amended theorem at concrete inputs. -/
theorem C3_witness :
    (∃ g ∈ [("a".data, ["abc".data, "x".data]),
            ("b".data, ["abc".data, "y".data])],
       groupMatchesExact "abc".data g.2 = true) ∧
    ("y".data ∈ find_candidates
        [("a".data, ["abc".data, "x".data]),
         ("b".data, ["abc".data, "y".data])] "abc".data ↔
      ∃ g ∈ [("a".data, ["abc".data, "x".data]),
             ("b".data, ["abc".data, "y".data])],
        groupMatchesExact "abc".data g.2 = true ∧ "y".data ∈ g.2) :=
  ⟨by decide,
   (C3_candidate_passes _ "abc".data "y".data).1 (by decide)⟩

/-! ## PAD2 preference (claim C4) -/

/-- C4: with the genitive-plural preference enabled, restoring `"blesku"`
in the PAD2 context yields `"blesků"`; with it disabled the same call
returns `"blesku"`; outside the PAD2 context the context criterion of the
score tuple is 0 for every candidate — likewise with the flag disabled —
and the preference flag has no effect on the result. -/
theorem C4_pad2_preference :
    (∀ st : Stats,
      (diacritize_token sample_dict true "blesku".data "PAD2".data st).1 =
        "blesků".data) ∧
    (∀ st : Stats,
      (diacritize_token sample_dict false "blesku".data "PAD2".data st).1 =
        "blesku".data) ∧
    (∀ (prefer : Bool) (original candidate : Str),
      (score_candidate prefer original candidate false).2.1 = 0) ∧
    (∀ (original candidate : Str) (is_pad2 : Bool),
      (score_candidate false original candidate is_pad2).2.1 = 0) ∧
    (∀ (d : Dict) (token col : Str) (st : Stats),
      upperStr col ≠ pad2Str →
      diacritize_token d true token col st =
        diacritize_token d false token col st) := by
  refine ⟨fun st => rfl, fun st => rfl, fun prefer o c => rfl,
    fun o c is_pad2 => ?_, fun d token col st h => ?_⟩
  · cases is_pad2 <;> rfl
  · have hb : (upperStr col == pad2Str) = false := by simpa using h
    simp only [diacritize_token, hb]
    rfl

/-- Witness for C4's theorem at concrete inputs. -/
theorem C4_witness :
    (diacritize_token sample_dict true "blesku".data "PAD2".data
        ⟨0, 0, 0, []⟩).1 = "blesků".data ∧
    (diacritize_token sample_dict false "blesku".data "PAD2".data
        ⟨0, 0, 0, []⟩).1 = "blesku".data ∧
    (score_candidate true "blesku".data "blesků".data false).2.1 = 0 ∧
    (score_candidate false "blesku".data "blesků".data true).2.1 = 0 ∧
    (upperStr "PAD1".data ≠ pad2Str ∧
      diacritize_token sample_dict true "blesku".data "PAD1".data
          ⟨0, 0, 0, []⟩ =
        diacritize_token sample_dict false "blesku".data "PAD1".data
          ⟨0, 0, 0, []⟩) :=
  ⟨C4_pad2_preference.1 _, C4_pad2_preference.2.1 _,
   C4_pad2_preference.2.2.1 true _ _, C4_pad2_preference.2.2.2.1 _ _ true,
   by decide,
   C4_pad2_preference.2.2.2.2 sample_dict "blesku".data "PAD1".data _
     (by decide)⟩

/-! ## Override priority and case reapplication (claims C5, C6, C8) -/

/-- Helper: a nonempty trimmed word whose stripped lowercase form hits the
override table is restored to the override value with the source's
uppercase / title-case / as-is case reapplication, before the dictionary is
ever consulted. -/
theorem restore_override_case (ov : List (Str × Str))
    (dict : List (Str × List Str)) (w v : Str)
    (hw : ¬(trim w).isEmpty = true)
    (hov : lookupA ov (strip_diacritics (lowerStr w)) = some v) :
    restore_word_diacritics ov dict w =
      if isupperS w then upperStr v
      else if istitleS w then capitalizeStr v
      else v := by
  have hne : ¬(w = [] ∨ (trim w).isEmpty = true) := by
    rintro (rfl | h)
    · exact hw rfl
    · exact hw h
  simp only [restore_word_diacritics, if_neg hne, hov]

/-- C5: when the diacritic-stripped lowercase form of a token is a key of
the override table, restoration returns the override's value (after case
reapplication) independently of the dictionary contents — the override wins
unconditionally. -/
theorem C5_override_wins (ov : List (Str × Str))
    (d1 d2 : List (Str × List Str)) (w v : Str)
    (hw : ¬(trim w).isEmpty = true)
    (hov : lookupA ov (strip_diacritics (lowerStr w)) = some v) :
    restore_word_diacritics ov d1 w = restore_word_diacritics ov d2 w ∧
    restore_word_diacritics ov d1 w =
      (if isupperS w then upperStr v
       else if istitleS w then capitalizeStr v
       else v) :=
  ⟨(restore_override_case ov d1 w v hw hov).trans
     (restore_override_case ov d2 w v hw hov).symm,
   restore_override_case ov d1 w v hw hov⟩

/-- Witness for C5's theorem at concrete inputs. -/
theorem C5_witness :
    (¬(trim "bazinu".data).isEmpty = true ∧
     lookupA [("bazinu".data, "bažinu".data)]
       (strip_diacritics (lowerStr "bazinu".data)) = some "bažinu".data) ∧
    (restore_word_diacritics [("bazinu".data, "bažinu".data)] [] "bazinu".data =
       restore_word_diacritics [("bazinu".data, "bažinu".data)]
         [("bazinu".data, ["bazinu".data])] "bazinu".data ∧
     restore_word_diacritics [("bazinu".data, "bažinu".data)] [] "bazinu".data =
       (if isupperS "bazinu".data then upperStr "bažinu".data
        else if istitleS "bazinu".data then capitalizeStr "bažinu".data
        else "bažinu".data)) :=
  ⟨⟨by decide, by decide⟩,
   C5_override_wins _ [] [("bazinu".data, ["bazinu".data])] _ _
     (by decide) (by decide)⟩

/-- C6: a token that matches nothing — no dictionary candidates for the
diacritizer; neither override nor dictionary key for the restorer — is
returned unchanged with no error, and the diacritizer records it as
unchanged in the statistics. -/
theorem C6_unmatched_token_unchanged :
    (∀ (d : Dict) (prefer : Bool) (token col : Str) (st : Stats),
      ¬(trim token).isEmpty = true → find_candidates d (trim token) = [] →
      diacritize_token d prefer token col st =
        (token, { st with unchanged := st.unchanged + 1 })) ∧
    (∀ (ov : List (Str × Str)) (dict : List (Str × List Str)) (w : Str),
      lookupA ov (strip_diacritics (lowerStr w)) = none →
      lookupA dict (strip_diacritics (lowerStr w)) = none →
      restore_word_diacritics ov dict w = w) := by
  constructor
  · intro d prefer token col st htok hfc
    have hemp : (trim token).isEmpty = false := by
      simpa using htok
    simp only [diacritize_token, hemp, Bool.false_eq_true, if_false, hfc]
  · intro ov dict w hov hd
    by_cases hg : w = [] ∨ (trim w).isEmpty = true
    · simp only [restore_word_diacritics, if_pos hg]
    · simp only [restore_word_diacritics, if_neg hg, hov, hd]

/-- Witness for C6's theorem at concrete inputs. -/
theorem C6_witness :
    (¬(trim "qqq".data).isEmpty = true ∧
     find_candidates sample_dict (trim "qqq".data) = [] ∧
     diacritize_token sample_dict true "qqq".data "PAD2".data ⟨0, 0, 0, []⟩ =
       ("qqq".data, { (⟨0, 0, 0, []⟩ : Stats) with unchanged := 0 + 1 })) ∧
    (lookupA [("pavel".data, "Pavel".data)]
        (strip_diacritics (lowerStr "qqq".data)) = none ∧
     lookupA [("pavel".data, ["Pavel".data])]
        (strip_diacritics (lowerStr "qqq".data)) = none ∧
     restore_word_diacritics [("pavel".data, "Pavel".data)]
        [("pavel".data, ["Pavel".data])] "qqq".data = "qqq".data) :=
  ⟨⟨by decide, by decide,
    C6_unmatched_token_unchanged.1 sample_dict true "qqq".data "PAD2".data _
      (by decide) (by decide)⟩,
   ⟨by decide, by decide,
    C6_unmatched_token_unchanged.2 _ _ "qqq".data (by decide) (by decide)⟩⟩

/-- Helper: positionwise case transfer from an all-uppercase pattern
uppercases every position of a candidate no longer than the pattern. -/
theorem pcAux_all_upper :
    ∀ (c o : Str), (∀ ch ∈ o, isUpperCh ch = true) → c.length ≤ o.length →
      pcAux o c = upperStr c := by
  intro c
  induction c with
  | nil =>
    intro o _ _
    cases o <;> rfl
  | cons ch cs ih =>
    intro o ho hlen
    cases o with
    | nil => simp at hlen
    | cons oh os =>
      have hoh : isUpperCh oh = true := ho oh (List.mem_cons_self _ _)
      show pcAux (oh :: os) (ch :: cs) = upperStr (ch :: cs)
      unfold pcAux
      rw [if_pos hoh,
        ih os (fun x hx => ho x (List.mem_cons_of_mem _ hx))
          (by simpa using hlen)]
      rfl

/-- Helper: positions beyond the pattern keep the candidate's characters. -/
theorem pcAux_drop :
    ∀ (o c : Str), (pcAux o c).drop o.length = c.drop o.length := by
  intro o
  induction o with
  | nil =>
    intro c
    cases c <;> rfl
  | cons oh os ih =>
    intro c
    cases c with
    | nil => simp [pcAux]
    | cons ch cs =>
      show ((if isUpperCh oh then czUpper ch
             else if isLowerCh oh then czLower ch
             else ch) :: pcAux os cs).drop (os.length + 1) =
        (ch :: cs).drop (os.length + 1)
      simpa using ih cs

/-- C8 counterexample: for the mixed-case word `"pAVEL"` (neither
uppercase nor title-case) the restorer returns the override value with its
own casing (`"pável"`), while the claim's rule demands the per-character
pattern transfer (`"pÁVEL"`). -/
theorem C8_case_counterexample :
    restore_word_diacritics [("pavel".data, "pável".data)] []
        "pAVEL".data = "pável".data ∧
    specCaseReapply "pAVEL".data "pável".data = "pÁVEL".data ∧
    "pável".data ≠ "pÁVEL".data := by
  refine ⟨by decide, by decide, by decide⟩

/-- C8 amended: the two sources reapply case differently.
`CzechDiacritizer._preserve_case` always transfers the original's case
pattern position by position (so an all-uppercase original uppercases a
candidate no longer than itself, and positions beyond the original keep the
candidate's case), while `restore_word_diacritics` uppercases a wholly
uppercase original's result, capitalizes a title-case original's result and
otherwise returns the chosen form with its own casing unchanged.  In
particular restoring `"PAVEL"` yields the uppercase of the chosen form
`"Pavel"` in the diacritizer. -/
theorem C8_case_reapplication :
    (∀ (original candidate : Str),
      (∀ ch ∈ original, isUpperCh ch = true) → original ≠ [] →
      candidate.length ≤ original.length →
      preserve_case original candidate = upperStr candidate) ∧
    (∀ (original candidate : Str),
      (preserve_case original candidate).drop original.length =
        candidate.drop original.length) ∧
    (∀ (ov : List (Str × Str)) (dict : List (Str × List Str)) (w v : Str),
      ¬(trim w).isEmpty = true →
      lookupA ov (strip_diacritics (lowerStr w)) = some v →
      restore_word_diacritics ov dict w =
        (if isupperS w then upperStr v
         else if istitleS w then capitalizeStr v
         else v)) ∧
    (∀ st : Stats,
      (diacritize_token sample_dict true "PAVEL".data "X".data st).1 =
        upperStr "Pavel".data) := by
  refine ⟨?_, ?_, fun ov dict w v hw hov =>
    restore_override_case ov dict w v hw hov, fun st => rfl⟩
  · intro original candidate hup hne hlen
    unfold preserve_case
    by_cases hg : original = [] ∨ candidate = []
    · rcases hg with rfl | rfl
      · exact absurd rfl hne
      · rw [if_pos (Or.inr rfl)]
        rfl
    · rw [if_neg hg]
      exact pcAux_all_upper candidate original hup hlen
  · intro original candidate
    unfold preserve_case
    by_cases hg : original = [] ∨ candidate = []
    · rw [if_pos hg]
    · rw [if_neg hg]
      exact pcAux_drop original candidate

/-- Witness for C8's amended theorem at concrete inputs. -/
theorem C8_witness :
    ((∀ ch ∈ "AB".data, isUpperCh ch = true) ∧
     preserve_case "AB".data "ab".data = upperStr "ab".data) ∧
    (preserve_case "AB".data "abc".data).drop "AB".data.length =
      "abc".data.drop "AB".data.length ∧
    restore_word_diacritics [("pavel".data, "pável".data)] []
        "PAVEL".data =
      (if isupperS "PAVEL".data then upperStr "pável".data
       else if istitleS "PAVEL".data then capitalizeStr "pável".data
       else "pável".data) ∧
    (diacritize_token sample_dict true "PAVEL".data "X".data
        ⟨0, 0, 0, []⟩).1 = upperStr "Pavel".data :=
  ⟨⟨by decide,
    C8_case_reapplication.1 "AB".data "ab".data (by decide) (by decide)
      (by decide)⟩,
   C8_case_reapplication.2.1 "AB".data "abc".data,
   C8_case_reapplication.2.2.1 _ [] "PAVEL".data "pável".data (by decide)
     (by decide),
   C8_case_reapplication.2.2.2 _⟩

/-! ## Statistics (claim C2) -/

/-- Helper: a token-level call never touches `total_processed` or the
per-column buckets. -/
theorem dt_total_by_column (d : Dict) (p : Bool) (token col : Str)
    (st : Stats) :
    (diacritize_token d p token col st).2.total_processed =
        st.total_processed ∧
    (diacritize_token d p token col st).2.by_column = st.by_column := by
  simp only [diacritize_token]
  split
  · exact ⟨rfl, rfl⟩
  · split
    · exact ⟨rfl, rfl⟩
    · split
      · exact ⟨rfl, rfl⟩
      · exact ⟨rfl, rfl⟩

/-- Helper: a token-level call on a trimmed nonempty token adds exactly one
to `changed + unchanged`, adding it to `changed` exactly when the output
differs from the token. -/
theorem dt_counts (d : Dict) (p : Bool) (token col : Str) (st : Stats)
    (htr : trim token = token) (hne : token ≠ []) :
    (diacritize_token d p token col st).2.changed +
        (diacritize_token d p token col st).2.unchanged =
      st.changed + st.unchanged + 1 ∧
    (diacritize_token d p token col st).2.changed =
      st.changed +
        (if (diacritize_token d p token col st).1 ≠ token then 1 else 0) := by
  have hemp : token.isEmpty = false := by
    simpa using hne
  simp only [diacritize_token, htr, hemp, Bool.false_eq_true, if_false]
  split
  · constructor
    · show st.changed + (st.unchanged + 1) = st.changed + st.unchanged + 1
      omega
    · simp
  · split
    next h =>
      have hr := eq_of_beq h
      constructor
      · show st.changed + (st.unchanged + 1) = st.changed + st.unchanged + 1
        omega
      · rw [if_neg (fun hx => hx hr)]
        exact rfl
    next h =>
      constructor
      · show st.changed + 1 + st.unchanged = st.changed + st.unchanged + 1
        omega
      · rw [if_pos (by simpa using h)]

/-- Count of positions where an output differs from its input token. -/
def countChangedPairs (outs ins : List Str) : Nat :=
  (outs.zip ins).countP (fun q => !(q.1 == q.2))

/-- Helper: the value loop of `diacritize_column` never touches
`total_processed`. -/
theorem dcAux_total (d : Dict) (p : Bool) (col : Str) :
    ∀ (values : List Str) (st : Stats),
      (dcAux d p col values st).2.1.total_processed = st.total_processed := by
  intro values
  induction values with
  | nil => intro st; rfl
  | cons v vs ih =>
    intro st
    show (dcAux d p col vs (diacritize_token d p v col st).2).2.1.total_processed
      = st.total_processed
    rw [ih, (dt_total_by_column d p v col st).1]

/-- C2 counterexample: a single `diacritize_token` call (N = 1, K = 0)
updates `unchanged` but leaves `total_processed` at 0, so
`getStatistics().total == N` fails. -/
theorem C2_total_counterexample :
    (diacritize_token [] true "x".data "A".data ⟨0, 0, 0, []⟩).2.total_processed
        = 0 ∧
    (diacritize_token [] true "x".data "A".data ⟨0, 0, 0, []⟩).2.unchanged
        = 1 ∧
    (0 : Nat) ≠ 1 := by
  refine ⟨rfl, rfl, by decide⟩

/-- C2 amended: after N token-level calls on trimmed nonempty tokens of
which K return an output different from the input, `changed` grows by K and
`unchanged` by N − K (so `changed + unchanged` grows by N), while
`total_processed` and the per-column buckets are not updated by token-level
calls at all; `total_processed` grows only with `diacritize_column`, by the
batch length. -/
theorem C2_statistics_amended :
    (∀ (d : Dict) (p : Bool) (calls : List (Str × Str)) (st : Stats),
      (∀ c ∈ calls, trim c.1 = c.1 ∧ c.1 ≠ []) →
      (runTokens d p calls st).2.total_processed = st.total_processed ∧
      (runTokens d p calls st).2.by_column = st.by_column ∧
      (runTokens d p calls st).2.changed +
          (runTokens d p calls st).2.unchanged =
        st.changed + st.unchanged + calls.length ∧
      (runTokens d p calls st).2.changed =
        st.changed +
          countChangedPairs (runTokens d p calls st).1
            (calls.map Prod.fst)) ∧
    (∀ (d : Dict) (p : Bool) (values : List Str) (col : Str) (st : Stats),
      (diacritize_column d p values col st).2.total_processed =
        st.total_processed + values.length) := by
  constructor
  · intro d p calls
    induction calls with
    | nil =>
      intro st _
      refine ⟨rfl, rfl, by simp [runTokens], by simp [runTokens, countChangedPairs]⟩
    | cons q rest ih =>
      intro st h
      have hq := h q (List.mem_cons_self _ _)
      have htb := dt_total_by_column d p q.1 q.2 st
      have hc := dt_counts d p q.1 q.2 st hq.1 hq.2
      have hrest := ih (diacritize_token d p q.1 q.2 st).2
        (fun c hcm => h c (List.mem_cons_of_mem _ hcm))
      refine ⟨?_, ?_, ?_, ?_⟩
      · show (runTokens d p rest (diacritize_token d p q.1 q.2 st).2).2.total_processed
          = st.total_processed
        rw [hrest.1, htb.1]
      · show (runTokens d p rest (diacritize_token d p q.1 q.2 st).2).2.by_column
          = st.by_column
        rw [hrest.2.1, htb.2]
      · show (runTokens d p rest (diacritize_token d p q.1 q.2 st).2).2.changed +
            (runTokens d p rest (diacritize_token d p q.1 q.2 st).2).2.unchanged
          = st.changed + st.unchanged + (q :: rest).length
        have h1 := hrest.2.2.1
        have h2 := hc.1
        simp only [List.length_cons]
        omega
      · show (runTokens d p rest (diacritize_token d p q.1 q.2 st).2).2.changed
          = st.changed + countChangedPairs
              ((diacritize_token d p q.1 q.2 st).1 ::
                (runTokens d p rest (diacritize_token d p q.1 q.2 st).2).1)
              ((q :: rest).map Prod.fst)
        have h1 := hrest.2.2.2
        have h2 := hc.2
        have hcp : countChangedPairs
            ((diacritize_token d p q.1 q.2 st).1 ::
              (runTokens d p rest (diacritize_token d p q.1 q.2 st).2).1)
            ((q :: rest).map Prod.fst) =
          countChangedPairs
              (runTokens d p rest (diacritize_token d p q.1 q.2 st).2).1
              (rest.map Prod.fst) +
            (if (diacritize_token d p q.1 q.2 st).1 ≠ q.1 then 1 else 0) := by
          simp only [countChangedPairs, List.map_cons, List.zip_cons_cons,
            List.countP_cons]
          by_cases he : (diacritize_token d p q.1 q.2 st).1 = q.1 <;>
            simp [he]
        rw [hcp]
        omega
  · intro d p values col st
    show (dcAux d p col values st).2.1.total_processed + values.length =
      st.total_processed + values.length
    rw [dcAux_total]

/-- Witness for C2's amended theorem at concrete inputs. -/
theorem C2_witness :
    ((∀ c ∈ [("x".data, "A".data)], trim c.1 = c.1 ∧ c.1 ≠ []) ∧
     ((runTokens [] true [("x".data, "A".data)] ⟨0, 0, 0, []⟩).2.total_processed
         = 0 ∧
      (runTokens [] true [("x".data, "A".data)] ⟨0, 0, 0, []⟩).2.by_column
         = [] ∧
      (runTokens [] true [("x".data, "A".data)] ⟨0, 0, 0, []⟩).2.changed +
          (runTokens [] true [("x".data, "A".data)] ⟨0, 0, 0, []⟩).2.unchanged
        = 0 + 0 + [("x".data, "A".data)].length ∧
      (runTokens [] true [("x".data, "A".data)] ⟨0, 0, 0, []⟩).2.changed =
        0 + countChangedPairs
          (runTokens [] true [("x".data, "A".data)] ⟨0, 0, 0, []⟩).1
          ([("x".data, "A".data)].map Prod.fst))) ∧
    (diacritize_column [] true ["x".data] "A".data ⟨0, 0, 0, []⟩).2.total_processed
      = 0 + ["x".data].length :=
  ⟨⟨by decide,
    C2_statistics_amended.1 [] true [("x".data, "A".data)] ⟨0, 0, 0, []⟩
      (by decide)⟩,
   C2_statistics_amended.2 [] true ["x".data] "A".data ⟨0, 0, 0, []⟩⟩
